import Mathlib

/-!
Shallow embedding of `src/distributions/uniform/uniform_int.rs` from the
`rand` crate: the `UniformInt<X>` back-end of `UniformSampler` for integer
types.

The Rust macro `uniform_int_impl! { $ty, $unsigned, $u_large }` instantiates
one copy of the algorithm per integer type.  We model it generically over

  * `signed : Bool` — whether `$ty` is a signed type;
  * `tw : Nat` — the bit width of `$ty` (equal to that of `$unsigned`);
  * `lw : Nat` — the bit width of `$u_large` (the PRNG word type), `tw ≤ lw`.

All machine values are represented by their bit pattern, a `Nat` below
`2 ^ width`; wrapping arithmetic is arithmetic modulo `2 ^ width`.  The value
denoted by a pattern of `$ty` is recovered by `sval signed tw` (two's
complement when `signed`).  The external entropy source (`rng.gen()`), an
out-of-scope collaborator, is modelled as a list of `lw`-wide words; the
rejection loop returns `none` when the list is exhausted, so every `some`
result is one the Rust loop actually returns for that word sequence.
-/

namespace RandUniformInt

/-- Wrapping addition of bit patterns in width `w` (`wrapping_add`). -/
def wadd (w a b : Nat) : Nat := (a + b) % 2 ^ w

/-- Wrapping subtraction of bit patterns in width `w` (`wrapping_sub`);
`a`, `b` are expected to be `< 2 ^ w`. -/
def wsub (w a b : Nat) : Nat := (a + 2 ^ w - b) % 2 ^ w

/-- The integer value denoted by bit pattern `x` of width `tw`:
two's-complement when `signed`, plain otherwise. -/
def sval (signed : Bool) (tw : Nat) (x : Nat) : Int :=
  if signed = true ∧ 2 ^ (tw - 1) ≤ x then (x : Int) - 2 ^ tw else (x : Int)

/-- Smallest value representable in width `tw` (`$ty::MIN`). -/
def ivmin (signed : Bool) (tw : Nat) : Int :=
  if signed then -((2 : Int) ^ (tw - 1)) else 0

/-- Largest value representable in width `tw` (`$ty::MAX`). -/
def ivmax (signed : Bool) (tw : Nat) : Int :=
  if signed then (2 : Int) ^ (tw - 1) - 1 else (2 : Int) ^ tw - 1

/-- Modelled from the spec: the widening-multiply primitive of
`src/distributions/utils.rs` (`WideningMultiply::wmul`), absent from the
sources.  Spec §4.1: given unsigned operands of width `W`, compute the exact
`2W`-bit product, returned as (high `W` bits, low `W` bits), with no
information loss. -/
def wmul (lw a b : Nat) : Nat × Nat := (a * b / 2 ^ lw, a * b % 2 ^ lw)

/-- Rust `leading_zeros` on a width-`w` unsigned value. -/
def leading_zeros (w x : Nat) : Nat :=
  if x = 0 then w else w - (Nat.log2 x + 1)

/-- The `UniformInt<X>` struct: `low`, `range` and `z` stored as width-`tw`
bit patterns (the Rust fields have type `X`; unsigned quantities are stored
through no-op casts). -/
structure UniformInt where
  low : Nat
  range : Nat
  z : Nat
  deriving Repr, DecidableEq

/-- The single construction-time error (`Uniform::new*` assertion failure /
`InvalidRange`). -/
inductive Error where
  | invalidRange
  deriving Repr, DecidableEq

/-- `high.wrapping_sub(low).wrapping_add(1) as $unsigned` — the `range`
computed by both constructors and by `sample_single_inclusive`. -/
def rangeOf (tw low high : Nat) : Nat := wadd tw (wsub tw high low) 1

/-- `(unsigned_max - range + 1) % range` in `$u_large` — the number of
words to reject (meaningful for `range > 0`). -/
def itr (lw range : Nat) : Nat := (2 ^ lw - 1 - range + 1) % range

/-- `UniformInt::new_inclusive(low, high)`.  Asserts `low <= high` (in the
value order of `$ty`), computes
`range = high.wrapping_sub(low).wrapping_add(1) as $unsigned`, and
`ints_to_reject = (unsigned_max - range + 1) % range` (in `$u_large`) when
`range > 0`, else `0`; stores `z = ints_to_reject as $unsigned as $ty`. -/
def new_inclusive (signed : Bool) (tw lw : Nat) (low high : Nat) :
    Except Error UniformInt :=
  if sval signed tw low ≤ sval signed tw high then
    Except.ok ⟨low, rangeOf tw low high,
      (if rangeOf tw low high > 0 then itr lw (rangeOf tw low high) else 0) % 2 ^ tw⟩
  else
    Except.error Error.invalidRange

/-- `UniformInt::new(low, high)`: asserts `low < high` then delegates to
`new_inclusive(low, high - 1)`. -/
def new (signed : Bool) (tw lw : Nat) (low high : Nat) :
    Except Error UniformInt :=
  if sval signed tw low < sval signed tw high then
    new_inclusive signed tw lw low (wsub tw high 1)
  else
    Except.error Error.invalidRange

/-- The rejection loop shared by `sample` and `sample_single_inclusive`:
draw word `v`, `(hi, lo) = v.wmul(range)`, accept when `lo <= zone` and
return `low.wrapping_add(hi as $ty)`; otherwise redraw.  Returns `none`
when the word list is exhausted. -/
def sampleLoop (tw lw : Nat) (low range zone : Nat) : List Nat → Option Nat
  | [] => none
  | v :: ws =>
    let p := wmul lw v range
    if p.2 ≤ zone then some (wadd tw low (p.1 % 2 ^ tw))
    else sampleLoop tw lw low range zone ws

/-- `UniformInt::sample(rng)`.  `range = self.range as $unsigned as $u_large`;
when `range > 0`, `zone = unsigned_max - self.z` and the rejection loop runs;
when `range == 0` one raw word is returned reinterpreted as `$ty` (the cast
of a `$u_large` word down to width `tw`). -/
def sample (tw lw : Nat) (s : UniformInt) (ws : List Nat) : Option Nat :=
  if s.range % 2 ^ tw > 0 then
    sampleLoop tw lw s.low (s.range % 2 ^ tw) (2 ^ lw - 1 - s.z % 2 ^ tw) ws
  else
    match ws with
    | [] => none
    | w :: _ => some (w % 2 ^ tw)

/-- The acceptance boundary used by `sample_single_inclusive` for wide
types: `(range << range.leading_zeros()).wrapping_sub(1)` in `$u_large`. -/
def approx_zone (lw range : Nat) : Nat :=
  wsub lw (range * 2 ^ leading_zeros lw range % 2 ^ lw) 1

/-- The exact acceptance boundary
`unsigned_max - (unsigned_max - range + 1) % range` in `$u_large`, used by
`sample_single_inclusive` for narrow types and (via `zone = MAX - z`) by
`sample`. -/
def exact_zone (lw range : Nat) : Nat :=
  2 ^ lw - 1 - (2 ^ lw - 1 - range + 1) % range

/-- The zone choice of `sample_single_inclusive`:
`$unsigned::MAX <= u16::MAX as $unsigned` selects the exact boundary
(narrow types), otherwise the shift approximation. -/
def single_zone (tw lw range : Nat) : Nat :=
  if 2 ^ tw - 1 ≤ (2 ^ 16 - 1) % 2 ^ tw then exact_zone lw range
  else approx_zone lw range

/-- `UniformInt::sample_single_inclusive(low, high, rng)`: asserts
`low <= high`, recomputes `range`; `range == 0` short-circuits to a raw
word; otherwise the zone is the exact boundary when
`$unsigned::MAX <= u16::MAX as $unsigned` and the shift approximation
otherwise, and the rejection loop runs. -/
def sample_single_inclusive (signed : Bool) (tw lw : Nat) (low high : Nat)
    (ws : List Nat) : Except Error (Option Nat) :=
  if sval signed tw low ≤ sval signed tw high then
    if rangeOf tw low high = 0 then
      Except.ok (match ws with
        | [] => none
        | w :: _ => some (w % 2 ^ tw))
    else
      Except.ok (sampleLoop tw lw low (rangeOf tw low high)
        (single_zone tw lw (rangeOf tw low high)) ws)
  else
    Except.error Error.invalidRange

/-- `UniformInt::sample_single(low, high, rng)`: asserts `low < high` then
delegates to `sample_single_inclusive(low, high - 1, rng)`. -/
def sample_single (signed : Bool) (tw lw : Nat) (low high : Nat)
    (ws : List Nat) : Except Error (Option Nat) :=
  if sval signed tw low < sval signed tw high then
    sample_single_inclusive signed tw lw low (wsub tw high 1) ws
  else
    Except.error Error.invalidRange

/-- Modelled from the spec (§4.2, §4.4), for comparison with the code's
signed instantiation: construction performed entirely on the bit-equal
unsigned patterns — `range = (high − low + 1)` with wraparound in the
unsigned domain of width `tw`, `threshold = (MAX_UNSIGNED − range + 1) mod
range` when `range > 0`, else `0`. -/
def specUnsignedConstruct (tw lw low high : Nat) : UniformInt :=
  ⟨low, (high + 2 ^ tw - low + 1) % 2 ^ tw,
    if (high + 2 ^ tw - low + 1) % 2 ^ tw > 0 then
      (2 ^ lw - 1 - (high + 2 ^ tw - low + 1) % 2 ^ tw + 1)
        % ((high + 2 ^ tw - low + 1) % 2 ^ tw)
    else 0⟩

/-- Modelled from the spec (§4.2): the unsigned draw loop — draw word `v`,
`(hi, lo) = widening_multiply(v, range)`; if `lo ≤ zone`, return `low + hi`
with wrapping addition in the target width; otherwise discard and redraw. -/
def specUnsignedLoop (tw lw low range zone : Nat) : List Nat → Option Nat
  | [] => none
  | v :: ws =>
    if v * range % 2 ^ lw ≤ zone then some ((low + v * range / 2 ^ lw) % 2 ^ tw)
    else specUnsignedLoop tw lw low range zone ws

/-- Modelled from the spec (§4.2): `sample` on the unsigned field values —
`range == 0` draws one raw word reinterpreted in the target width;
otherwise `zone = MAX_UNSIGNED − threshold` and the loop runs. -/
def specUnsignedSample (tw lw : Nat) (s : UniformInt) (ws : List Nat) :
    Option Nat :=
  if s.range = 0 then
    match ws with
    | [] => none
    | w :: _ => some (w % 2 ^ tw)
  else
    specUnsignedLoop tw lw s.low s.range (2 ^ lw - 1 - s.z) ws

/-! ### Arithmetic helper lemmas -/

lemma two_pow_pos (w : Nat) : 0 < 2 ^ w := pow_pos (by norm_num) w

lemma wadd_lt (w a b : Nat) : wadd w a b < 2 ^ w := Nat.mod_lt _ (two_pow_pos w)

lemma wsub_lt (w a b : Nat) : wsub w a b < 2 ^ w := Nat.mod_lt _ (two_pow_pos w)

lemma two_pow_split {tw : Nat} (htw : 0 < tw) :
    (2 : Int) ^ (tw - 1) + 2 ^ (tw - 1) = 2 ^ tw := by
  obtain ⟨u, rfl⟩ : ∃ u, tw = u + 1 := ⟨tw - 1, (Nat.succ_pred_eq_of_pos htw).symm⟩
  have h2 : u + 1 - 1 = u := rfl
  rw [h2, pow_succ]
  ring

lemma sval_false (tw x : Nat) : sval false tw x = (x : Int) := by
  simp [sval]

lemma ivmin_false (tw : Nat) : ivmin false tw = 0 := rfl

lemma ivmax_false (tw : Nat) : ivmax false tw = 2 ^ tw - 1 := rfl

lemma ivmin_true (tw : Nat) : ivmin true tw = -((2 : Int) ^ (tw - 1)) := rfl

lemma ivmax_true (tw : Nat) : ivmax true tw = (2 : Int) ^ (tw - 1) - 1 := rfl

lemma sval_true_of_le {tw x : Nat} (h : 2 ^ (tw - 1) ≤ x) :
    sval true tw x = (x : Int) - 2 ^ tw := by
  unfold sval
  rw [if_pos ⟨rfl, h⟩]

lemma sval_true_of_lt {tw x : Nat} (h : x < 2 ^ (tw - 1)) :
    sval true tw x = (x : Int) := by
  unfold sval
  rw [if_neg (fun hc => absurd hc.2 (Nat.not_le_of_lt h))]

lemma dvd_sval_sub (signed : Bool) (tw x : Nat) :
    ((2 : Int) ^ tw) ∣ ((x : Int) - sval signed tw x) := by
  unfold sval
  split
  · have h : (x : Int) - ((x : Int) - 2 ^ tw) = 2 ^ tw := by ring
    rw [h]
  · simp

lemma sval_bounds (signed : Bool) {tw x : Nat} (htw : 0 < tw) (hx : x < 2 ^ tw) :
    ivmin signed tw ≤ sval signed tw x ∧ sval signed tw x ≤ ivmax signed tw := by
  have hxI : (x : Int) < (2 : Int) ^ tw := by exact_mod_cast hx
  have hx0 : (0 : Int) ≤ (x : Int) := Int.natCast_nonneg x
  have hpow := two_pow_split htw
  cases signed with
  | false =>
    rw [sval_false, ivmin_false, ivmax_false]
    omega
  | true =>
    rw [ivmin_true, ivmax_true]
    by_cases h : 2 ^ (tw - 1) ≤ x
    · have hI : ((2 : Int) ^ (tw - 1)) ≤ (x : Int) := by exact_mod_cast h
      rw [sval_true_of_le h]
      omega
    · have hI : (x : Int) < (2 : Int) ^ (tw - 1) := by
        exact_mod_cast Nat.lt_of_not_le h
      rw [sval_true_of_lt (Nat.lt_of_not_le h)]
      omega

lemma ivspan (signed : Bool) {tw : Nat} (htw : 0 < tw) :
    ivmax signed tw - ivmin signed tw = 2 ^ tw - 1 := by
  have hpow := two_pow_split htw
  cases signed
  · rw [ivmin_false, ivmax_false]
    ring
  · rw [ivmin_true, ivmax_true]
    omega

/-- Two integers in the representable window of width `tw` that are congruent
modulo `2 ^ tw` are equal; hence a bit pattern's value is determined by any
congruent integer in the window. -/
lemma sval_eq_of (signed : Bool) {tw x : Nat} {z : Int} (htw : 0 < tw) (hx : x < 2 ^ tw)
    (h1 : ivmin signed tw ≤ z) (h2 : z ≤ ivmax signed tw)
    (h3 : ((2 : Int) ^ tw) ∣ ((x : Int) - z)) : sval signed tw x = z := by
  have hb := sval_bounds signed htw hx
  have hspan := ivspan signed htw
  have hd : ((2 : Int) ^ tw) ∣ (sval signed tw x - z) := by
    have h4 := dvd_sval_sub signed tw x
    have h5 : sval signed tw x - z = ((x : Int) - z) - ((x : Int) - sval signed tw x) := by ring
    rw [h5]
    exact dvd_sub h3 h4
  have habs : |sval signed tw x - z| < 2 ^ tw := by
    rw [abs_lt]
    constructor <;> omega
  have h0 := Int.eq_zero_of_abs_lt_dvd hd habs
  omega

lemma dvd_cast_mod_sub (tw a : Nat) (z : Int)
    (h : ((2 : Int) ^ tw) ∣ ((a : Int) - z)) :
    ((2 : Int) ^ tw) ∣ (((a % 2 ^ tw : Nat) : Int) - z) := by
  have hcast : ((a % 2 ^ tw : Nat) : Int) = (a : Int) % ((2 : Int) ^ tw) := by
    push_cast
    ring
  rw [hcast, Int.emod_def]
  have h2 : (a : Int) - (2 : Int) ^ tw * ((a : Int) / 2 ^ tw) - z
      = ((a : Int) - z) - (2 : Int) ^ tw * ((a : Int) / 2 ^ tw) := by ring
  rw [h2]
  exact dvd_sub h (dvd_mul_right _ _)

lemma succ_mod_two_pow {w D : Nat} (hD : D < 2 ^ w) :
    (D + 1) % 2 ^ w = if D + 1 = 2 ^ w then 0 else D + 1 := by
  split
  next h => rw [h, Nat.mod_self]
  next h => exact Nat.mod_eq_of_lt (by omega)

/-- The wrapping difference `high.wrapping_sub(low)` of two patterns denotes
the exact value difference whenever `low ≤ high` in value order. -/
lemma wsub_val (signed : Bool) {tw low high : Nat} (htw : 0 < tw)
    (hlo : low < 2 ^ tw) (hhi : high < 2 ^ tw)
    (hle : sval signed tw low ≤ sval signed tw high) :
    ((wsub tw high low : Nat) : Int) = sval signed tw high - sval signed tw low := by
  have h1 := sval_bounds signed htw hlo
  have h2 := sval_bounds signed htw hhi
  have hspan := ivspan signed htw
  have key : sval false tw (wsub tw high low)
      = sval signed tw high - sval signed tw low := by
    apply sval_eq_of false htw (wsub_lt _ _ _)
    · simp only [ivmin, if_neg (by simp : ¬false = true)]
      omega
    · simp only [ivmax, if_neg (by simp : ¬false = true)]
      omega
    · show ((2 : Int) ^ tw) ∣ (((high + 2 ^ tw - low) % 2 ^ tw : Nat) : Int)
        - (sval signed tw high - sval signed tw low)
      apply dvd_cast_mod_sub
      have hcast : ((high + 2 ^ tw - low : Nat) : Int)
          = (high : Int) + 2 ^ tw - low := by
        have hle2 : low ≤ high + 2 ^ tw := by omega
        push_cast [hle2]
        ring
      rw [hcast]
      have h3 : (high : Int) + 2 ^ tw - (low : Int)
            - (sval signed tw high - sval signed tw low)
          = (((high : Int) - sval signed tw high)
            - ((low : Int) - sval signed tw low)) + 2 ^ tw := by ring
      rw [h3]
      exact dvd_add (dvd_sub (dvd_sval_sub _ _ _) (dvd_sval_sub _ _ _)) dvd_rfl
  rw [sval_false] at key
  exact key

/-- `range == 0` (the full-domain sentinel) holds exactly when the bounds are
the type's extremes. -/
lemma range_zero_iff (signed : Bool) {tw low high : Nat} (htw : 0 < tw)
    (hlo : low < 2 ^ tw) (hhi : high < 2 ^ tw)
    (hle : sval signed tw low ≤ sval signed tw high) :
    rangeOf tw low high = 0 ↔
      sval signed tw low = ivmin signed tw ∧ sval signed tw high = ivmax signed tw := by
  have hD := wsub_val signed htw hlo hhi hle
  have hDlt : wsub tw high low < 2 ^ tw := wsub_lt _ _ _
  have hmod := succ_mod_two_pow hDlt
  have h1 := sval_bounds signed htw hlo
  have h2 := sval_bounds signed htw hhi
  have hspan := ivspan signed htw
  have hwadd : rangeOf tw low high = (wsub tw high low + 1) % 2 ^ tw := rfl
  constructor
  · intro h0
    have hfull : wsub tw high low + 1 = 2 ^ tw := by
      by_contra hne
      rw [hwadd, hmod, if_neg hne] at h0
      omega
    have hfullI : ((wsub tw high low : Nat) : Int) + 1 = (2 : Int) ^ tw := by
      exact_mod_cast congrArg (Nat.cast : Nat → Int) hfull
    rw [hD] at hfullI
    constructor <;> omega
  · rintro ⟨ha, hb⟩
    have hDI : ((wsub tw high low : Nat) : Int) = (2 : Int) ^ tw - 1 := by
      rw [hD, ha, hb]
      omega
    have hfull : wsub tw high low + 1 = 2 ^ tw := by
      have h3 : ((wsub tw high low : Nat) : Int) + 1 = (2 : Int) ^ tw := by omega
      exact_mod_cast h3
    rw [hwadd, hmod, if_pos hfull]

/-- When nonzero, `range` denotes the exact count `high − low + 1`. -/
lemma range_val_of_ne (signed : Bool) {tw low high : Nat} (htw : 0 < tw)
    (hlo : low < 2 ^ tw) (hhi : high < 2 ^ tw)
    (hle : sval signed tw low ≤ sval signed tw high)
    (hne : rangeOf tw low high ≠ 0) :
    ((rangeOf tw low high : Nat) : Int)
      = sval signed tw high - sval signed tw low + 1 := by
  have hD := wsub_val signed htw hlo hhi hle
  have hDlt : wsub tw high low < 2 ^ tw := wsub_lt _ _ _
  have hmod := succ_mod_two_pow hDlt
  have hwadd : rangeOf tw low high = (wsub tw high low + 1) % 2 ^ tw := rfl
  by_cases hfull : wsub tw high low + 1 = 2 ^ tw
  · rw [hwadd, hmod, if_pos hfull] at hne
    omega
  · rw [hwadd, hmod, if_neg hfull]
    push_cast
    omega

/-- The accepted draw `low.wrapping_add(hi as $ty)` denotes `low + hi`
whenever `hi` does not exceed the value span. -/
lemma result_val (signed : Bool) {tw low high hi : Nat} (htw : 0 < tw)
    (hlo : low < 2 ^ tw) (hhi : high < 2 ^ tw)
    (hhi2 : (hi : Int) ≤ sval signed tw high - sval signed tw low) :
    sval signed tw (wadd tw low (hi % 2 ^ tw)) = sval signed tw low + hi := by
  have h1 := sval_bounds signed htw hlo
  have h2 := sval_bounds signed htw hhi
  have hhn : (0 : Int) ≤ (hi : Int) := Int.natCast_nonneg hi
  apply sval_eq_of signed htw (wadd_lt _ _ _)
  · omega
  · omega
  · show ((2 : Int) ^ tw) ∣ (((low + hi % 2 ^ tw) % 2 ^ tw : Nat) : Int)
      - (sval signed tw low + hi)
    apply dvd_cast_mod_sub
    have hcast : ((low + hi % 2 ^ tw : Nat) : Int)
        = (low : Int) + ((hi % 2 ^ tw : Nat) : Int) := by push_cast; ring
    rw [hcast]
    have hmod : ((2 : Int) ^ tw) ∣ (((hi % 2 ^ tw : Nat) : Int) - (hi : Int)) := by
      apply dvd_cast_mod_sub
      simp
    have h3 : (low : Int) + ((hi % 2 ^ tw : Nat) : Int) - (sval signed tw low + hi)
        = ((low : Int) - sval signed tw low)
          + (((hi % 2 ^ tw : Nat) : Int) - (hi : Int)) := by ring
    rw [h3]
    exact dvd_add (dvd_sval_sub _ _ _) hmod

/-- Any value the rejection loop returns is `low.wrapping_add(hi)` for some
high product half `hi < range`. -/
lemma sampleLoop_some {tw lw low range zone v : Nat} {ws : List Nat}
    (hw : ∀ w ∈ ws, w < 2 ^ lw) (hr : 0 < range)
    (h : sampleLoop tw lw low range zone ws = some v) :
    ∃ hi, hi < range ∧ v = wadd tw low (hi % 2 ^ tw) := by
  induction ws with
  | nil => simp [sampleLoop] at h
  | cons w ws ih =>
    rw [sampleLoop] at h
    by_cases hacc : (wmul lw w range).2 ≤ zone
    · rw [if_pos hacc] at h
      refine ⟨(wmul lw w range).1, ?_, ?_⟩
      · have hwlt : w < 2 ^ lw := hw w (List.mem_cons_self _ _)
        show w * range / 2 ^ lw < range
        rw [Nat.div_lt_iff_lt_mul (two_pow_pos lw)]
        calc w * range < 2 ^ lw * range := by
              exact Nat.mul_lt_mul_of_lt_of_le hwlt (Nat.le_refl range) hr
          _ = range * 2 ^ lw := Nat.mul_comm _ _
      · exact (Option.some.inj h).symm
    · rw [if_neg hacc] at h
      exact ih (fun x hx => hw x (List.mem_cons_of_mem _ hx)) h

/-- Bounds for any value produced by the rejection loop run with the
`range` computed from valid bounds. -/
lemma bounds_of_loop (signed : Bool) {tw lw low high zone v : Nat} {ws : List Nat}
    (htw : 0 < tw) (hlo : low < 2 ^ tw) (hhi : high < 2 ^ tw)
    (hle : sval signed tw low ≤ sval signed tw high)
    (hws : ∀ w ∈ ws, w < 2 ^ lw)
    (hne : rangeOf tw low high ≠ 0)
    (h : sampleLoop tw lw low (rangeOf tw low high) zone ws = some v) :
    sval signed tw low ≤ sval signed tw v ∧ sval signed tw v ≤ sval signed tw high := by
  obtain ⟨hi, hhilt, rfl⟩ := sampleLoop_some hws (Nat.pos_of_ne_zero hne) h
  have hRI := range_val_of_ne signed htw hlo hhi hle hne
  have hhiI : (hi : Int) < ((rangeOf tw low high : Nat) : Int) := by
    exact_mod_cast hhilt
  have hhile : (hi : Int) ≤ sval signed tw high - sval signed tw low := by omega
  have hres := result_val signed htw hlo hhi hhile
  have hhn : (0 : Int) ≤ (hi : Int) := Int.natCast_nonneg hi
  rw [hres]
  omega

/-- Bounds for a raw word draw in the full-domain (`range == 0`) case. -/
lemma bounds_of_raw (signed : Bool) {tw low high v : Nat}
    (htw : 0 < tw) (hlo : low < 2 ^ tw) (hhi : high < 2 ^ tw)
    (hle : sval signed tw low ≤ sval signed tw high)
    (h0 : rangeOf tw low high = 0) (hv : v < 2 ^ tw) :
    sval signed tw low ≤ sval signed tw v ∧ sval signed tw v ≤ sval signed tw high := by
  obtain ⟨ha, hb⟩ := (range_zero_iff signed htw hlo hhi hle).mp h0
  have hbv := sval_bounds signed htw hv
  rw [ha, hb]
  exact hbv

/-- Inversion of successful construction: the assertion held and the stored
fields are the computed ones. -/
lemma new_inclusive_ok {signed : Bool} {tw lw low high : Nat} {s : UniformInt}
    (hok : new_inclusive signed tw lw low high = Except.ok s) :
    sval signed tw low ≤ sval signed tw high ∧
      s = ⟨low, rangeOf tw low high,
        (if rangeOf tw low high > 0 then itr lw (rangeOf tw low high) else 0) % 2 ^ tw⟩ := by
  unfold new_inclusive at hok
  split at hok
  next hle => exact ⟨hle, (Except.ok.inj hok).symm⟩
  next hle => exact Except.noConfusion hok

/-- Any value produced by a sampler built by `new_inclusive` over valid
bounds, and any value produced by `sample_single_inclusive` over valid
bounds, lies between the bounds (in the value order of the type). -/
lemma inclusive_bounds (signed : Bool) {tw lw low high v : Nat} {ws : List Nat}
    (htw : 0 < tw) (hlo : low < 2 ^ tw) (hhi : high < 2 ^ tw)
    (hws : ∀ w ∈ ws, w < 2 ^ lw) :
    (∀ s, new_inclusive signed tw lw low high = Except.ok s →
        sample tw lw s ws = some v →
        sval signed tw low ≤ sval signed tw v ∧ sval signed tw v ≤ sval signed tw high)
    ∧ (sample_single_inclusive signed tw lw low high ws = Except.ok (some v) →
        sval signed tw low ≤ sval signed tw v ∧ sval signed tw v ≤ sval signed tw high) := by
  have hRlt : rangeOf tw low high < 2 ^ tw := wadd_lt _ _ _
  constructor
  · intro s hok hsamp
    obtain ⟨hle, rfl⟩ := new_inclusive_ok hok
    unfold sample at hsamp
    simp only [Nat.mod_eq_of_lt hRlt] at hsamp
    by_cases hR : rangeOf tw low high > 0
    · rw [if_pos hR] at hsamp
      exact bounds_of_loop signed htw hlo hhi hle hws (Nat.pos_iff_ne_zero.mp hR) hsamp
    · rw [if_neg hR] at hsamp
      have h0 : rangeOf tw low high = 0 := Nat.eq_zero_of_not_pos hR
      cases ws with
      | nil => exact Option.noConfusion hsamp
      | cons w tl =>
        obtain rfl : w % 2 ^ tw = v := Option.some.inj hsamp
        exact bounds_of_raw signed htw hlo hhi hle h0 (Nat.mod_lt _ (two_pow_pos tw))
  · intro hok
    unfold sample_single_inclusive at hok
    split at hok
    next hle =>
      by_cases h0 : rangeOf tw low high = 0
      · rw [if_pos h0] at hok
        cases ws with
        | nil => exact Option.noConfusion (Except.ok.inj hok)
        | cons w tl =>
          obtain rfl : w % 2 ^ tw = v := Option.some.inj (Except.ok.inj hok)
          exact bounds_of_raw signed htw hlo hhi hle h0 (Nat.mod_lt _ (two_pow_pos tw))
      · rw [if_neg h0] at hok
        exact bounds_of_loop signed htw hlo hhi hle hws h0 (Except.ok.inj hok)
    next hle => exact Except.noConfusion hok

/-- Under the strict precondition of the exclusive constructors, the pattern
`high.wrapping_sub(1)` denotes exactly `high − 1`. -/
lemma subOne_val (signed : Bool) {tw high : Nat} (htw : 0 < tw)
    (hhi : high < 2 ^ tw) (hgt : ivmin signed tw < sval signed tw high) :
    sval signed tw (wsub tw high 1) = sval signed tw high - 1 := by
  have hb := sval_bounds signed htw hhi
  apply sval_eq_of signed htw (wsub_lt _ _ _)
  · omega
  · omega
  · show ((2 : Int) ^ tw) ∣ (((high + 2 ^ tw - 1) % 2 ^ tw : Nat) : Int)
      - (sval signed tw high - 1)
    apply dvd_cast_mod_sub
    have hcast : ((high + 2 ^ tw - 1 : Nat) : Int) = (high : Int) + 2 ^ tw - 1 := by
      have hle2 : 1 ≤ high + 2 ^ tw := by
        have := two_pow_pos tw
        omega
      push_cast [hle2]
      ring
    rw [hcast]
    have h3 : (high : Int) + 2 ^ tw - 1 - (sval signed tw high - 1)
        = ((high : Int) - sval signed tw high) + 2 ^ tw := by ring
    rw [h3]
    exact dvd_add (dvd_sval_sub _ _ _) dvd_rfl

/-- Inversion of successful exclusive construction. -/
lemma new_ok_inv {signed : Bool} {tw lw low high : Nat} {s : UniformInt}
    (hok : new signed tw lw low high = Except.ok s) :
    sval signed tw low < sval signed tw high ∧
      new_inclusive signed tw lw low (wsub tw high 1) = Except.ok s := by
  unfold new at hok
  split at hok
  next hlt => exact ⟨hlt, hok⟩
  next hlt => exact Except.noConfusion hok

/-- Inversion of successful `sample_single`. -/
lemma sample_single_ok_inv {signed : Bool} {tw lw low high : Nat} {ws : List Nat}
    {r : Option Nat}
    (hok : sample_single signed tw lw low high ws = Except.ok r) :
    sval signed tw low < sval signed tw high ∧
      sample_single_inclusive signed tw lw low (wsub tw high 1) ws = Except.ok r := by
  unfold sample_single at hok
  split at hok
  next hlt => exact ⟨hlt, hok⟩
  next hlt => exact Except.noConfusion hok

/-! ### Claim theorems -/

/-- C1: For every supported integer type (any signedness `signed` and widths
`0 < tw`, word width `lw`) and every pair of patterns `(low, high)`, every
value returned by `sample` on a sampler built by `new_inclusive(low, high)`,
and every value returned by `sample_single_inclusive(low, high)`, satisfies
`low ≤ v ≤ high` in the value order of the type, for every word sequence the
entropy source produces; the exclusive variants `new` / `sample_single`
return only values with `low ≤ v < high`.  (Successful construction entails
the `low ≤ high` resp. `low < high` precondition.) -/
theorem C1_sampled_values_in_bounds (signed : Bool) (tw lw low high v : Nat)
    (ws : List Nat) (htw : 0 < tw) (hlo : low < 2 ^ tw) (hhi : high < 2 ^ tw)
    (hws : ∀ w ∈ ws, w < 2 ^ lw) :
    (∀ s, new_inclusive signed tw lw low high = Except.ok s →
        sample tw lw s ws = some v →
        sval signed tw low ≤ sval signed tw v ∧ sval signed tw v ≤ sval signed tw high)
    ∧ (sample_single_inclusive signed tw lw low high ws = Except.ok (some v) →
        sval signed tw low ≤ sval signed tw v ∧ sval signed tw v ≤ sval signed tw high)
    ∧ (∀ s, new signed tw lw low high = Except.ok s →
        sample tw lw s ws = some v →
        sval signed tw low ≤ sval signed tw v ∧ sval signed tw v < sval signed tw high)
    ∧ (sample_single signed tw lw low high ws = Except.ok (some v) →
        sval signed tw low ≤ sval signed tw v ∧ sval signed tw v < sval signed tw high) := by
  refine ⟨(inclusive_bounds signed htw hlo hhi hws).1,
    (inclusive_bounds signed htw hlo hhi hws).2, ?_, ?_⟩
  · intro s hok hsamp
    obtain ⟨hlt, hok2⟩ := new_ok_inv hok
    have hb := sval_bounds signed htw hlo
    have hsub := subOne_val signed htw hhi (by omega)
    have hm : wsub tw high 1 < 2 ^ tw := wsub_lt _ _ _
    have hres := (inclusive_bounds signed htw hlo hm hws).1 s hok2 hsamp
    rw [hsub] at hres
    omega
  · intro hok
    obtain ⟨hlt, hok2⟩ := sample_single_ok_inv hok
    have hb := sval_bounds signed htw hlo
    have hsub := subOne_val signed htw hhi (by omega)
    have hm : wsub tw high 1 < 2 ^ tw := wsub_lt _ _ _
    have hres := (inclusive_bounds signed htw hlo hm hws).2 hok2
    rw [hsub] at hres
    omega

/-- Witness for C1: `u8`-shaped instance (`tw = lw = 8`), bounds `[3, 7]`,
word 200; the sampler is `⟨3, 5, 1⟩` and the accepted draw is `6`. -/
theorem C1_sampled_values_in_bounds_witness :
    sval false 8 3 ≤ sval false 8 6 ∧ sval false 8 6 ≤ sval false 8 7 :=
  (C1_sampled_values_in_bounds false 8 8 3 7 6 [200] (by decide) (by decide)
    (by decide) (by decide)).1 ⟨3, 5, 1⟩ (by rfl) (by rfl)

/-- C2: On successful construction, when the stored `range` is nonzero the
stored threshold field `z` equals `(MAX_UNSIGNED − range + 1) mod range`
with `MAX_UNSIGNED = 2 ^ lw − 1` the maximum of the word width used for the
type, and `z = 0` when `range == 0`; concretely, the 32-bit-word range
`[0, 9]` stores `threshold = 6 = 2 ^ 32 mod 10`. -/
theorem C2_threshold_formula (signed : Bool) (tw lw low high : Nat)
    (s : UniformInt) (hok : new_inclusive signed tw lw low high = Except.ok s) :
    (s.range ≠ 0 → s.z = (2 ^ lw - 1 - s.range + 1) % s.range)
    ∧ (s.range = 0 → s.z = 0)
    ∧ new_inclusive false 32 32 0 9 = Except.ok ⟨0, 10, 6⟩
    ∧ 2 ^ 32 % 10 = 6 := by
  obtain ⟨hle, rfl⟩ := new_inclusive_ok hok
  have hRlt : rangeOf tw low high < 2 ^ tw := wadd_lt _ _ _
  refine ⟨?_, ?_, by rfl, by norm_num⟩
  · intro hne
    have hne2 : rangeOf tw low high ≠ 0 := hne
    show (if rangeOf tw low high > 0 then itr lw (rangeOf tw low high) else 0) % 2 ^ tw
      = (2 ^ lw - 1 - rangeOf tw low high + 1) % rangeOf tw low high
    rw [if_pos (Nat.pos_of_ne_zero hne2)]
    have hitr : itr lw (rangeOf tw low high) < rangeOf tw low high :=
      Nat.mod_lt _ (Nat.pos_of_ne_zero hne2)
    exact Nat.mod_eq_of_lt (by omega)
  · intro h0
    have h02 : rangeOf tw low high = 0 := h0
    show (if rangeOf tw low high > 0 then itr lw (rangeOf tw low high) else 0) % 2 ^ tw = 0
    rw [h02]
    simp

/-- Witness for C2 at the concrete 32-bit `[0, 9]` scenario: the stored
`z = 6` satisfies the threshold formula. -/
theorem C2_threshold_formula_witness :
    (6 : Nat) = (2 ^ 32 - 1 - 10 + 1) % 10 :=
  (C2_threshold_formula false 32 32 0 9 ⟨0, 10, 6⟩ (by rfl)).1 (by decide)

/-- C3: For every nonzero `range` below the word domain, the single-shot
approximate acceptance boundary `(range << leading_zeros(range)) − 1` is at
most the exact boundary `MAX_UNSIGNED − ((MAX_UNSIGNED − range + 1) mod
range)`: the approximation only rejects more candidates, never fewer. -/
theorem C3_approx_boundary_le_exact (lw range : Nat) (h1 : 0 < range)
    (h2 : range < 2 ^ lw) : approx_zone lw range ≤ exact_zone lw range := by
  have hrange2 : range < 2 ^ (Nat.log2 range + 1) := Nat.lt_log2_self
  have hrange1 : 2 ^ Nat.log2 range ≤ range :=
    Nat.log2_self_le (Nat.pos_iff_ne_zero.mp h1)
  have hblw : Nat.log2 range + 1 ≤ lw := by
    by_contra hc
    push_neg at hc
    have h3 : 2 ^ lw ≤ 2 ^ Nat.log2 range :=
      Nat.pow_le_pow_right (by norm_num) (by omega)
    omega
  have hlz : leading_zeros lw range = lw - (Nat.log2 range + 1) := by
    unfold leading_zeros
    rw [if_neg (Nat.pos_iff_ne_zero.mp h1)]
  have hexp : 2 ^ (Nat.log2 range + 1) * 2 ^ (lw - (Nat.log2 range + 1)) = 2 ^ lw := by
    rw [← pow_add]
    congr 1
    omega
  have hshift_lt : range * 2 ^ (lw - (Nat.log2 range + 1)) < 2 ^ lw := by
    calc range * 2 ^ (lw - (Nat.log2 range + 1))
        < 2 ^ (Nat.log2 range + 1) * 2 ^ (lw - (Nat.log2 range + 1)) :=
          Nat.mul_lt_mul_of_lt_of_le hrange2 (Nat.le_refl _) (two_pow_pos _)
      _ = 2 ^ lw := hexp
  have hshift_pos : 0 < range * 2 ^ (lw - (Nat.log2 range + 1)) :=
    Nat.mul_pos h1 (two_pow_pos _)
  have happrox : approx_zone lw range = range * 2 ^ (lw - (Nat.log2 range + 1)) - 1 := by
    unfold approx_zone wsub
    rw [hlz, Nat.mod_eq_of_lt hshift_lt]
    have h4 : range * 2 ^ (lw - (Nat.log2 range + 1)) + 2 ^ lw - 1
        = (range * 2 ^ (lw - (Nat.log2 range + 1)) - 1) + 2 ^ lw := by omega
    rw [h4, Nat.add_mod_right]
    exact Nat.mod_eq_of_lt (by omega)
  have hdm := Nat.div_add_mod (2 ^ lw) range
  have hrlt : 2 ^ lw % range < range := Nat.mod_lt _ h1
  have hq1 : 1 ≤ 2 ^ lw / range := (Nat.one_le_div_iff h1).mpr (le_of_lt h2)
  have hsub : (2 ^ lw - 1 - range + 1) % range = 2 ^ lw % range := by
    have h4 : 2 ^ lw - 1 - range + 1 = 2 ^ lw - range := by omega
    have h5 : 2 ^ lw - range + range = 2 ^ lw := by omega
    calc (2 ^ lw - 1 - range + 1) % range
        = (2 ^ lw - range) % range := by rw [h4]
      _ = (2 ^ lw - range + range) % range := (Nat.add_mod_right _ _).symm
      _ = 2 ^ lw % range := by rw [h5]
  have hexact : exact_zone lw range = 2 ^ lw - 1 - 2 ^ lw % range := by
    unfold exact_zone
    rw [hsub]
  have hq : 2 ^ (lw - (Nat.log2 range + 1)) ≤ 2 ^ lw / range := by
    rw [Nat.le_div_iff_mul_le h1]
    rw [Nat.mul_comm]
    omega
  have hmul : range * 2 ^ (lw - (Nat.log2 range + 1)) ≤ range * (2 ^ lw / range) :=
    Nat.mul_le_mul_left range hq
  rw [happrox, hexact]
  omega

/-- Witness for C3 at `lw = 32`, `range = 10`: boundary `2684354559 ≤
4294967289`. -/
theorem C3_approx_boundary_le_exact_witness :
    approx_zone 32 10 ≤ exact_zone 32 10 :=
  C3_approx_boundary_le_exact 32 10 (by decide) (by decide)

/-- C4: The `range` field computed at construction is zero exactly when
`low` is the type's minimum and `high` its maximum; and when `range == 0`,
both `sample` and `sample_single_inclusive` return the first raw word from
the entropy source reinterpreted in the target width, with no rejection
test and no redraw (exactly one word is consumed, whatever its value). -/
theorem C4_full_domain_sentinel (signed : Bool) (tw lw low high w : Nat)
    (ws : List Nat) (s : UniformInt) (htw : 0 < tw)
    (hlo : low < 2 ^ tw) (hhi : high < 2 ^ tw)
    (hok : new_inclusive signed tw lw low high = Except.ok s) :
    (s.range = 0 ↔
      sval signed tw low = ivmin signed tw ∧ sval signed tw high = ivmax signed tw)
    ∧ (s.range = 0 → sample tw lw s (w :: ws) = some (w % 2 ^ tw))
    ∧ (s.range = 0 →
        sample_single_inclusive signed tw lw low high (w :: ws)
          = Except.ok (some (w % 2 ^ tw))) := by
  obtain ⟨hle, rfl⟩ := new_inclusive_ok hok
  refine ⟨range_zero_iff signed htw hlo hhi hle, ?_, ?_⟩
  · intro h0
    have h02 : rangeOf tw low high = 0 := h0
    unfold sample
    simp only [h02]
    simp
  · intro h0
    have h02 : rangeOf tw low high = 0 := h0
    unfold sample_single_inclusive
    rw [if_pos hle, if_pos h02]

/-- Witness for C4: `u8`-shaped full domain `[0, 255]` (`tw = lw = 8`),
whose sampler is `⟨0, 0, 0⟩`; the raw word 77 is returned as drawn. -/
theorem C4_full_domain_sentinel_witness :
    ((⟨0, 0, 0⟩ : UniformInt).range = 0 ↔
      sval false 8 0 = ivmin false 8 ∧ sval false 8 255 = ivmax false 8)
    ∧ ((⟨0, 0, 0⟩ : UniformInt).range = 0 →
        sample 8 8 ⟨0, 0, 0⟩ (77 :: []) = some (77 % 2 ^ 8))
    ∧ ((⟨0, 0, 0⟩ : UniformInt).range = 0 →
        sample_single_inclusive false 8 8 0 255 (77 :: [])
          = Except.ok (some (77 % 2 ^ 8))) :=
  C4_full_domain_sentinel false 8 8 0 255 77 [] ⟨0, 0, 0⟩ (by decide) (by decide)
    (by decide) (by rfl)

/-- C5: Every sampler built by `new_inclusive` satisfies the state
invariant: when `range` is nonzero, `0 ≤ z < range` — in particular the
narrowing of `ints_to_reject` to the target width for storage loses no
information (`ints_to_reject % 2 ^ tw = ints_to_reject`) — and when
`range == 0` the `z` field is zero.  `sample` takes the state immutably
(the embedding is a pure function of it), so the invariant holds across
every draw. -/
theorem C5_state_invariant (signed : Bool) (tw lw low high : Nat)
    (s : UniformInt) (hok : new_inclusive signed tw lw low high = Except.ok s) :
    (s.range ≠ 0 → s.z < s.range ∧ itr lw s.range % 2 ^ tw = itr lw s.range)
    ∧ (s.range = 0 → s.z = 0) := by
  obtain ⟨hle, rfl⟩ := new_inclusive_ok hok
  have hRlt : rangeOf tw low high < 2 ^ tw := wadd_lt _ _ _
  constructor
  · intro hne
    have hne2 : rangeOf tw low high ≠ 0 := hne
    have hpos : 0 < rangeOf tw low high := Nat.pos_of_ne_zero hne2
    have hitr : itr lw (rangeOf tw low high) < rangeOf tw low high := Nat.mod_lt _ hpos
    have hid : itr lw (rangeOf tw low high) % 2 ^ tw = itr lw (rangeOf tw low high) :=
      Nat.mod_eq_of_lt (by omega)
    constructor
    · show (if rangeOf tw low high > 0 then itr lw (rangeOf tw low high) else 0) % 2 ^ tw
        < rangeOf tw low high
      rw [if_pos hpos, hid]
      exact hitr
    · exact hid
  · intro h0
    have h02 : rangeOf tw low high = 0 := h0
    show (if rangeOf tw low high > 0 then itr lw (rangeOf tw low high) else 0) % 2 ^ tw = 0
    rw [h02]
    simp

/-- Witness for C5 at the `u32` range `[0, 9]`: the stored `z = 6` is below
`range = 10` and the narrowing is lossless. -/
theorem C5_state_invariant_witness :
    (6 : Nat) < 10 ∧ itr 32 10 % 2 ^ 32 = itr 32 10 :=
  (C5_state_invariant false 32 32 0 9 ⟨0, 10, 6⟩ (by rfl)).1 (by decide)

/-- C6: Construction fails, with the single error kind `InvalidRange`,
exactly when `low > high` (inclusive constructors) resp. `low ≥ high`
(exclusive constructors), for every signedness and width; `new(10, 5)` and
`new(10, 10)` both fail; and when the precondition holds no error is ever
raised by sampling itself (`sample` is infallible by type; the single-shot
samplers return `ok`). -/
theorem C6_invalid_range_exactly (signed : Bool) (tw lw low high : Nat)
    (ws : List Nat) (htw : 0 < tw) (hlo : low < 2 ^ tw) (hhi : high < 2 ^ tw) :
    (new_inclusive signed tw lw low high = Except.error Error.invalidRange ↔
      ¬ sval signed tw low ≤ sval signed tw high)
    ∧ (new signed tw lw low high = Except.error Error.invalidRange ↔
      ¬ sval signed tw low < sval signed tw high)
    ∧ (sval signed tw low ≤ sval signed tw high →
        ∃ r, sample_single_inclusive signed tw lw low high ws = Except.ok r)
    ∧ (sval signed tw low < sval signed tw high →
        ∃ r, sample_single signed tw lw low high ws = Except.ok r)
    ∧ new false 32 32 10 5 = Except.error Error.invalidRange
    ∧ new false 32 32 10 10 = Except.error Error.invalidRange := by
  have hsingle : ∀ l h : Nat, sval signed tw l ≤ sval signed tw h →
      ∃ r, sample_single_inclusive signed tw lw l h ws = Except.ok r := by
    intro l h hle
    unfold sample_single_inclusive
    rw [if_pos hle]
    by_cases h0 : rangeOf tw l h = 0
    · rw [if_pos h0]
      exact ⟨_, rfl⟩
    · rw [if_neg h0]
      exact ⟨_, rfl⟩
  have hsub : sval signed tw low < sval signed tw high →
      sval signed tw low ≤ sval signed tw (wsub tw high 1) := by
    intro hlt
    have hb := sval_bounds signed htw hlo
    have h1 := subOne_val signed htw hhi (by omega)
    omega
  refine ⟨?_, ?_, hsingle low high, ?_, by rfl, by rfl⟩
  · constructor
    · intro herr
      intro hle
      unfold new_inclusive at herr
      rw [if_pos hle] at herr
      exact Except.noConfusion herr
    · intro hnle
      unfold new_inclusive
      rw [if_neg hnle]
  · constructor
    · intro herr
      intro hlt
      unfold new at herr
      rw [if_pos hlt] at herr
      unfold new_inclusive at herr
      rw [if_pos (hsub hlt)] at herr
      exact Except.noConfusion herr
    · intro hnlt
      unfold new
      rw [if_neg hnlt]
  · intro hlt
    unfold sample_single
    rw [if_pos hlt]
    exact hsingle low (wsub tw high 1) (hsub hlt)

/-- Witness for C6 at `u32` bounds `[3, 7]`: flipped and equal exclusive
constructions fail with `InvalidRange`. -/
theorem C6_invalid_range_exactly_witness :
    new false 32 32 10 5 = Except.error Error.invalidRange
    ∧ new false 32 32 10 10 = Except.error Error.invalidRange :=
  ⟨(C6_invalid_range_exactly false 32 32 3 7 [] (by decide) (by decide)
      (by decide)).2.2.2.2.1,
   (C6_invalid_range_exactly false 32 32 3 7 [] (by decide) (by decide)
      (by decide)).2.2.2.2.2⟩

lemma rangeOf_spec_eq (tw low high : Nat) :
    rangeOf tw low high = (high + 2 ^ tw - low + 1) % 2 ^ tw := by
  unfold rangeOf wadd wsub
  rw [Nat.mod_add_mod]

lemma specConstruct_eq (tw lw low high : Nat) :
    specUnsignedConstruct tw lw low high
      = ⟨low, rangeOf tw low high,
          (if rangeOf tw low high > 0 then itr lw (rangeOf tw low high) else 0)
            % 2 ^ tw⟩ := by
  unfold specUnsignedConstruct
  rw [← rangeOf_spec_eq]
  congr 1
  by_cases hRpos : rangeOf tw low high > 0
  · rw [if_pos hRpos, if_pos hRpos]
    show itr lw (rangeOf tw low high) = itr lw (rangeOf tw low high) % 2 ^ tw
    exact (Nat.mod_eq_of_lt (lt_trans (Nat.mod_lt _ hRpos) (wadd_lt _ _ _))).symm
  · rw [if_neg hRpos, if_neg hRpos]
    simp

lemma sampleLoop_eq_spec (tw lw low range zone : Nat) (ws : List Nat) :
    sampleLoop tw lw low range zone ws = specUnsignedLoop tw lw low range zone ws := by
  induction ws with
  | nil => rfl
  | cons v tl ih =>
    simp only [sampleLoop, specUnsignedLoop, wmul]
    by_cases hacc : v * range % 2 ^ lw ≤ zone
    · rw [if_pos hacc, if_pos hacc]
      show some (wadd tw low (v * range / 2 ^ lw % 2 ^ tw)) = _
      unfold wadd
      rw [Nat.add_mod_mod]
    · rw [if_neg hacc, if_neg hacc]
      exact ih

lemma sample_eq_spec (tw lw : Nat) (s : UniformInt) (ws : List Nat)
    (hr : s.range < 2 ^ tw) (hz : s.z < 2 ^ tw) :
    sample tw lw s ws = specUnsignedSample tw lw s ws := by
  unfold sample specUnsignedSample
  rw [Nat.mod_eq_of_lt hr, Nat.mod_eq_of_lt hz]
  by_cases h0 : s.range = 0
  · rw [h0]
    simp
  · rw [if_pos (Nat.pos_of_ne_zero h0), if_neg h0]
    exact sampleLoop_eq_spec _ _ _ _ _ _

/-- C7: The signed instantiation is the unsigned computation composed with
bit reinterpretation at the boundary: for every valid signed pair of
patterns and every word sequence, `new_inclusive` over the signed order
stores exactly the fields of the spec's unsigned range/threshold
computation on the same bit patterns, and `sample` coincides with the
spec's unsigned draw computation; results are patterns, reinterpreted to
signed values only by reading them through `sval true`. -/
theorem C7_signed_refines_unsigned (tw lw low high : Nat) (ws : List Nat)
    (hle : sval true tw low ≤ sval true tw high) :
    new_inclusive true tw lw low high
      = Except.ok (specUnsignedConstruct tw lw low high)
    ∧ sample tw lw (specUnsignedConstruct tw lw low high) ws
      = specUnsignedSample tw lw (specUnsignedConstruct tw lw low high) ws := by
  constructor
  · unfold new_inclusive
    rw [if_pos hle, specConstruct_eq]
  · apply sample_eq_spec
    · rw [specConstruct_eq]
      exact wadd_lt _ _ _
    · rw [specConstruct_eq]
      exact Nat.mod_lt _ (two_pow_pos tw)

/-- Witness for C7: the `i8`-shaped (`tw = lw = 8`) signed range
`[-5, 5]` (patterns 251, 5) with word 200. -/
theorem C7_signed_refines_unsigned_witness :
    new_inclusive true 8 8 251 5 = Except.ok (specUnsignedConstruct 8 8 251 5)
    ∧ sample 8 8 (specUnsignedConstruct 8 8 251 5) [200]
      = specUnsignedSample 8 8 (specUnsignedConstruct 8 8 251 5) [200] :=
  C7_signed_refines_unsigned 8 8 251 5 [200] (by decide)

/-- C8: For every `low < high` (in value order), the exclusive constructor
`new(low, high)` produces exactly the state of `new_inclusive(low, high−1)`
(the pattern `high.wrapping_sub(1)`, which denotes `high − 1`), and
`sample_single(low, high)` returns exactly what
`sample_single_inclusive(low, high−1)` returns on the same word
sequence. -/
theorem C8_exclusive_delegates (signed : Bool) (tw lw low high : Nat)
    (ws : List Nat) (htw : 0 < tw) (hlo : low < 2 ^ tw) (hhi : high < 2 ^ tw)
    (hlt : sval signed tw low < sval signed tw high) :
    sval signed tw (wsub tw high 1) = sval signed tw high - 1
    ∧ new signed tw lw low high = new_inclusive signed tw lw low (wsub tw high 1)
    ∧ sample_single signed tw lw low high ws
      = sample_single_inclusive signed tw lw low (wsub tw high 1) ws := by
  have hb := sval_bounds signed htw hlo
  refine ⟨subOne_val signed htw hhi (by omega), ?_, ?_⟩
  · unfold new
    rw [if_pos hlt]
  · unfold sample_single
    rw [if_pos hlt]

/-- Witness for C8 at the `u32` pair `(3, 8)`: `new(3, 8)` equals
`new_inclusive(3, 7)` and likewise for the single-shot samplers. -/
theorem C8_exclusive_delegates_witness :
    sval false 32 (wsub 32 8 1) = sval false 32 8 - 1
    ∧ new false 32 32 3 8 = new_inclusive false 32 32 3 (wsub 32 8 1)
    ∧ sample_single false 32 32 3 8 [4000000000]
      = sample_single_inclusive false 32 32 3 (wsub 32 8 1) [4000000000] :=
  C8_exclusive_delegates false 32 32 3 8 [4000000000] (by decide) (by decide)
    (by decide) (by decide)

/-- C9: A degenerate single-value range, e.g. `new_inclusive(10, 10)`,
stores `range = 1`, `z = 0`, and `sample` returns `low` for every word the
entropy source produces (so every one of the 20 consecutive draws of the
source test returns 10): widening-multiplying any word by `range = 1`
yields high half 0 and a low half that is always accepted. -/
theorem C9_degenerate_range (signed : Bool) (tw lw low w : Nat) (ws : List Nat)
    (htw : 0 < tw) (hlow : low < 2 ^ tw) (hw : w < 2 ^ lw) :
    new_inclusive signed tw lw low low = Except.ok ⟨low, 1, 0⟩
    ∧ sample tw lw ⟨low, 1, 0⟩ (w :: ws) = some low := by
  have h2tw : 1 < 2 ^ tw := by
    calc 1 < 2 ^ 1 := by norm_num
      _ ≤ 2 ^ tw := Nat.pow_le_pow_right (by norm_num) htw
  have hws0 : wsub tw low low = 0 := by
    unfold wsub
    have h4 : low + 2 ^ tw - low = 2 ^ tw := by omega
    rw [h4, Nat.mod_self]
  have hR1 : rangeOf tw low low = 1 := by
    unfold rangeOf
    rw [hws0]
    unfold wadd
    exact Nat.mod_eq_of_lt h2tw
  constructor
  · unfold new_inclusive
    rw [if_pos (le_refl _)]
    rw [hR1]
    simp [itr, Nat.mod_one]
  · unfold sample
    simp only []
    rw [show (1 : Nat) % 2 ^ tw = 1 from Nat.mod_eq_of_lt h2tw, Nat.zero_mod,
      Nat.sub_zero, if_pos Nat.one_pos]
    simp only [sampleLoop, wmul]
    have hacc : w * 1 % 2 ^ lw ≤ 2 ^ lw - 1 := by
      have h5 := Nat.mod_lt (w * 1) (two_pow_pos lw)
      omega
    rw [if_pos hacc]
    have hhi0 : w * 1 / 2 ^ lw = 0 := by
      rw [Nat.mul_one]
      exact Nat.div_eq_of_lt hw
    rw [hhi0, Nat.zero_mod]
    unfold wadd
    rw [Nat.add_zero, Nat.mod_eq_of_lt hlow]

/-- Witness for C9: the `u32` range `[10, 10]` with word 123456789 draws
10. -/
theorem C9_degenerate_range_witness :
    new_inclusive false 32 32 10 10 = Except.ok ⟨10, 1, 0⟩
    ∧ sample 32 32 ⟨10, 1, 0⟩ (123456789 :: []) = some 10 :=
  C9_degenerate_range false 32 32 10 123456789 [] (by decide) (by decide)
    (by decide)

/-- C10: In `new` and `sample_single`, after the `low < high` check
succeeds the subtraction `high − 1` cannot underflow: `high − 1` is still
representable (`ivmin ≤ high − 1`), the wrapping subtraction agrees with
the exact one, the delegated inclusive precondition `low ≤ high − 1` holds,
and construction and single-shot sampling succeed with no arithmetic
failure. -/
theorem C10_no_underflow (signed : Bool) (tw lw low high : Nat)
    (ws : List Nat) (htw : 0 < tw) (hlo : low < 2 ^ tw) (hhi : high < 2 ^ tw)
    (hlt : sval signed tw low < sval signed tw high) :
    ivmin signed tw ≤ sval signed tw high - 1
    ∧ sval signed tw (wsub tw high 1) = sval signed tw high - 1
    ∧ sval signed tw low ≤ sval signed tw (wsub tw high 1)
    ∧ (∃ s, new signed tw lw low high = Except.ok s)
    ∧ (∃ r, sample_single signed tw lw low high ws = Except.ok r) := by
  have hb := sval_bounds signed htw hlo
  have hsub := subOne_val signed htw hhi (by omega)
  have hle2 : sval signed tw low ≤ sval signed tw (wsub tw high 1) := by omega
  refine ⟨by omega, hsub, hle2, ?_, ?_⟩
  · have hok : new signed tw lw low high
        = Except.ok ⟨low, rangeOf tw low (wsub tw high 1),
            (if rangeOf tw low (wsub tw high 1) > 0
              then itr lw (rangeOf tw low (wsub tw high 1)) else 0) % 2 ^ tw⟩ := by
      unfold new
      rw [if_pos hlt]
      unfold new_inclusive
      rw [if_pos hle2]
    exact ⟨_, hok⟩
  · unfold sample_single
    rw [if_pos hlt]
    unfold sample_single_inclusive
    rw [if_pos hle2]
    by_cases h0 : rangeOf tw low (wsub tw high 1) = 0
    · rw [if_pos h0]
      exact ⟨_, rfl⟩
    · rw [if_neg h0]
      exact ⟨_, rfl⟩

/-- Witness for C10 at the `u32` pair `(3, 8)`. -/
theorem C10_no_underflow_witness :
    ivmin false 32 ≤ sval false 32 8 - 1
    ∧ sval false 32 (wsub 32 8 1) = sval false 32 8 - 1
    ∧ sval false 32 3 ≤ sval false 32 (wsub 32 8 1)
    ∧ (∃ s, new false 32 32 3 8 = Except.ok s)
    ∧ (∃ r, sample_single false 32 32 3 8 [] = Except.ok r) :=
  C10_no_underflow false 32 32 3 8 [] (by decide) (by decide) (by decide)
    (by decide)

end RandUniformInt
